import Mathlib

/-!
Formal model of the hybrid retrieval engine in app/retrieval.py.

Conventions of the shallow embedding:
* Python floats are modelled by ℚ.  The two transcendental primitives used by
  the source, math.log (natural logarithm, used only inside bm25_scores via
  idf) and math.sqrt (used only inside np.linalg.norm via cosine), are passed
  as explicit function parameters of type ℚ → ℚ; every theorem quantifies
  over them, adding the facts about the real functions it needs as explicit
  hypotheses.
* Decimal constants of the source are written as exact rationals:
  0.05 = 1/20, 0.15 = 3/20, 0.20 = 1/5, 0.25 = 1/4, 0.35 = 7/20,
  0.40 = 2/5, 0.60 = 3/5, 0.75 = 3/4, 0.9 = 9/10, 1.2 = 6/5.
* A stored embedding is a JSON string in the database; the result of
  json.loads plus np.array conversion is modelled as Option (List ℚ), where
  none stands for the parse raising an exception.
* Python lists are Lean lists; Python insertion-ordered dicts are association
  lists in which updating an existing key keeps its position and inserting a
  new key appends (updIns below); dict.values() is the list of second
  components.  list.sort(key=..., reverse=True) is a stable descending sort,
  hence extensionally List.insertionSort with the non-strict descending
  relation on the key.
-/

namespace Retrieval

/-- Stop-word set _SK_STOP from app/retrieval.py (Slovak stop words plus a
few brand terms). -/
def _SK_STOP : List String :=
  ["a","aj","alebo","ani","na","v","vo","do","z","za","od","o","u","s","so",
   "je","sú","som","si","sa","by","byť","čo","kto","ktorý","ktorá","ktoré",
   "ak","aké","ako","že","pre","pri","nad","pod","po","už","len","či","tiež",
   "slovenská","slovenska","sporiteľňa","sporitelna","slsp","sk"]

/-- BUSINESS_HINTS from app/retrieval.py. -/
def BUSINESS_HINTS : List String :=
  ["biznis","firma","firemny","firemný","podnik","podnikanie","živnost",
   "zivnost","živnostník","zivnostnik"]

/-- Folding of the Slovak accented letters to their base letter.  This models
the effect of unicodedata.normalize("NFD", ·) followed by dropping
combining-mark characters, restricted to the letters of the Slovak alphabet;
characters outside this table are left unchanged. -/
def slovakFold (c : Char) : Char :=
  match c with
  | 'á' => 'a' | 'ä' => 'a' | 'č' => 'c' | 'ď' => 'd' | 'é' => 'e'
  | 'í' => 'i' | 'ĺ' => 'l' | 'ľ' => 'l' | 'ň' => 'n' | 'ó' => 'o'
  | 'ô' => 'o' | 'ŕ' => 'r' | 'š' => 's' | 'ť' => 't' | 'ú' => 'u'
  | 'ý' => 'y' | 'ž' => 'z'
  | 'Á' => 'a' | 'Ä' => 'a' | 'Č' => 'c' | 'Ď' => 'd' | 'É' => 'e'
  | 'Í' => 'i' | 'Ĺ' => 'l' | 'Ľ' => 'l' | 'Ň' => 'n' | 'Ó' => 'o'
  | 'Ô' => 'o' | 'Ŕ' => 'r' | 'Š' => 's' | 'Ť' => 't' | 'Ú' => 'u'
  | 'Ý' => 'y' | 'Ž' => 'z'
  | _ => c

/-- strip_acc from app/retrieval.py: lower-case the string and strip
diacritics (NFD decomposition, dropping combining marks, modelled by
slovakFold).  str.lower is modelled per character: Char.toLower covers the
ASCII letters and slovakFold lowers the accented capitals while folding
their diacritics. -/
def strip_acc (s : String) : String :=
  String.mk ((s.data.map Char.toLower).map slovakFold)

/-- The run-splitting loop of tokens: cur holds the current alphanumeric run
in reverse; on a non-alphanumeric character a nonempty run is emitted. -/
def runsAux : List Char → List Char → List String
  | [], cur => if cur.isEmpty then [] else [String.mk cur.reverse]
  | c :: rest, cur =>
    if c.isAlphanum then runsAux rest (c :: cur)
    else if cur.isEmpty then runsAux rest []
    else String.mk cur.reverse :: runsAux rest []

/-- tokens from app/retrieval.py: accent-strip, split on non-alphanumeric
boundaries, keep tokens of length at least 3 that are not stop words.
(Python str.isalnum is modelled by Char.isAlphanum.) -/
def tokens (s : String) : List String :=
  (runsAux (strip_acc s).data []).filter
    (fun t => decide (3 ≤ t.length) && ! _SK_STOP.contains t)

/-- Python substring test (needle in hay), over the character lists. -/
def strContains (hay needle : String) : Bool :=
  hay.data.tails.any (fun t => needle.data.isPrefixOf t)

/-- Python str.endswith over the character lists. -/
def strEndsWith (hay needle : String) : Bool :=
  needle.data.isSuffixOf hay.data

/-- BM25 parameter k1 = 1.2 (default argument of bm25_scores; every call in
the source uses the default). -/
def k1 : ℚ := 6/5

/-- BM25 parameter b = 0.75 (default argument of bm25_scores; every call in
the source uses the default). -/
def b : ℚ := 3/4

/-- Document frequency: the number of chunks containing the token at least
once (the Counter built from set(toks) per chunk in bm25_scores). -/
def df (chunk_texts : List (List String)) (t : String) : ℕ :=
  (chunk_texts.filter (fun toks => toks.contains t)).length

/-- The idf formula of bm25_scores with add-0.5 smoothing, with the natural
logarithm passed as the parameter log. -/
def idf (log : ℚ → ℚ) (N n_t : ℕ) : ℚ :=
  log (((N : ℚ) - (n_t : ℚ) + 1/2) / ((n_t : ℚ) + 1/2) + 1)

/-- avgdl as computed by bm25_scores: total token count divided by
max(1, N). -/
def avgdl (chunk_texts : List (List String)) : ℚ :=
  ((chunk_texts.map List.length).sum : ℚ) / ((max 1 chunk_texts.length : ℕ) : ℚ)

/-- bm25_scores from app/retrieval.py.  The guard `if qt not in tf` is the
condition `toks.count qt = 0`; note the denominator divides by
max(1.0, avgdl), not by avgdl itself. -/
def bm25_scores (log : ℚ → ℚ) (q_toks : List String)
    (chunk_texts : List (List String)) : List ℚ :=
  if chunk_texts.isEmpty || q_toks.isEmpty then
    List.replicate chunk_texts.length 0
  else
    chunk_texts.map (fun toks =>
      (q_toks.map (fun qt =>
        if toks.count qt = 0 then 0
        else
          idf log chunk_texts.length (df chunk_texts qt) *
            (((toks.count qt : ℚ) * (k1 + 1)) /
             ((toks.count qt : ℚ) +
               k1 * (1 - b + b * (toks.length : ℚ) / max 1 (avgdl chunk_texts)))))).sum)

/-- Modelled from the spec: document frequency over the candidate pool. -/
def dfSpec (pool : List (List String)) (t : String) : ℕ :=
  (pool.filter (fun toks => toks.contains t)).length

/-- Modelled from the spec: idf(t) = ln((N - df(t) + 0.5) / (df(t) + 0.5) + 1). -/
def idfSpec (log : ℚ → ℚ) (N df_t : ℕ) : ℚ :=
  log (((N : ℚ) - (df_t : ℚ) + 1/2) / ((df_t : ℚ) + 1/2) + 1)

/-- Modelled from the spec: avgdl is the mean token count over the pool. -/
def avgdlSpec (pool : List (List String)) : ℚ :=
  ((pool.map List.length).sum : ℚ) / (pool.length : ℚ)

/-- Modelled from the spec: the reference BM25 of §4.3 — per chunk the sum
over query tokens t present in the chunk of
idf(t) * (tf(t)*(k1+1)) / (tf(t) + k1*(1 - b + b*dl/avgdl)), with an
all-zero vector for an empty query token set or empty candidate set. -/
def bm25Spec (log : ℚ → ℚ) (q_toks : List String)
    (pool : List (List String)) : List ℚ :=
  if pool.isEmpty || q_toks.isEmpty then
    List.replicate pool.length 0
  else
    pool.map (fun toks =>
      (q_toks.map (fun t =>
        if toks.contains t then
          idfSpec log pool.length (dfSpec pool t) *
            (((toks.count t : ℚ) * (k1 + 1)) /
             ((toks.count t : ℚ) +
               k1 * (1 - b + b * (toks.length : ℚ) / avgdlSpec pool)))
        else 0)).sum)

/-- url_title_prior from app/retrieval.py: accumulate the heuristic rule
weights against the accent-stripped URL and title, then clamp to
[-0.6, 0.9]. -/
def url_title_prior (q_toks : List String) (url title : String)
    (is_business_query : Bool) : ℚ :=
  let u := strip_acc url
  let t := strip_acc title
  let hits : ℚ := (q_toks.map (fun qt =>
      (if strContains u qt then (1/5 : ℚ) else 0) +
      (if strContains t qt then (3/20 : ℚ) else 0))).sum
  let raw := hits
    + (if strContains u "uct" || strContains t "uct" then (7/20 : ℚ) else 0)
    + (if strContains u "/ludia/vsetky-ucty" || strContains u "/ludia/ucty"
       then (2/5 : ℚ) else 0)
    + (if strContains u "/ludia/" then (3/20 : ℚ) else 0)
    + (if strContains u "/content/dam/" || strEndsWith u ".pdf"
       then (-(2/5) : ℚ) else 0)
    + (if strContains u "/zmluvne-podmienky" || strContains u "/archiv" ||
          strContains u "/landing-pages/"
       then (-(1/4) : ℚ) else 0)
    + (if strContains u "/biznis/"
       then (if is_business_query then (1/20 : ℚ) else (-(1/5) : ℚ)) else 0)
  max (min raw (9/10)) (-(3/5))

/-- A row of the Chunk table as read by retrieve (select of id, text,
embedding, document_id filtered by tenant).  The embedding column is a JSON
string; field embedding here is the outcome of json.loads + np.array on it,
with none modelling a raised parse error. -/
structure Chunk where
  id : ℕ
  text : String
  embedding : Option (List ℚ)
  document_id : ℕ
  tenant : String
deriving DecidableEq

/-- The attributes of the Document table that retrieve reads. -/
structure Document where
  id : ℕ
  url : String
  title : String
deriving DecidableEq

/-- An entry of cos_scored: (cid, text, doc_id, cosine). -/
structure CosScored where
  cid : ℕ
  text : String
  doc_id : ℕ
  cos : ℚ
deriving DecidableEq

/-- An entry of combined_per_chunk / best_per_doc / by_url / ranked:
(cid, text, doc_id, final score). -/
structure Scored where
  cid : ℕ
  text : String
  doc_id : ℕ
  score : ℚ
deriving DecidableEq

/-- np.dot over rational vectors. -/
def dot (a v : List ℚ) : ℚ := (List.zipWith (fun x y => x * y) a v).sum

/-- np.linalg.norm with math.sqrt passed as the parameter sqrt. -/
def norm (sqrt : ℚ → ℚ) (v : List ℚ) : ℚ := sqrt ((v.map (fun x => x * x)).sum)

/-- cosine from app/retrieval.py: 0 when the product of norms is 0,
otherwise the dot product over it. -/
def cosine (sqrt : ℚ → ℚ) (a v : List ℚ) : ℚ :=
  let denom := norm sqrt a * norm sqrt v
  if denom = 0 then 0 else dot a v / denom

/-- The cos_scored loop of retrieve: per row, parse the stored embedding and
attach the cosine against the query vector.  A parse failure raises, which
aborts the whole loop, hence the Option result for the whole list. -/
def cosScored (sqrt : ℚ → ℚ) (q_vec : List ℚ) : List Chunk → Option (List CosScored)
  | [] => some []
  | r :: rs =>
    match r.embedding with
    | none => none
    | some e =>
      (cosScored sqrt q_vec rs).map
        (fun l => { cid := r.id, text := r.text, doc_id := r.document_id,
                    cos := cosine sqrt q_vec e } :: l)

/-- Non-strict descending comparison on the cosine component; the sort key
of cos_scored.sort(key=..., reverse=True). -/
def descCos (a c : CosScored) : Prop := c.cos ≤ a.cos

instance : DecidableRel descCos :=
  fun a c => inferInstanceAs (Decidable (c.cos ≤ a.cos))

instance : IsTotal CosScored descCos := ⟨fun a c => le_total c.cos a.cos⟩

instance : IsTrans CosScored descCos := ⟨fun _ _ _ h1 h2 => le_trans h2 h1⟩

/-- The preselection step of retrieve: stable descending sort by cosine,
then keep the first M = min(300, candidate count) entries. -/
def preselect (l : List CosScored) : List CosScored :=
  (l.insertionSort descCos).take (min 300 l.length)

/-- The Mth-highest cosine similarity of the candidate list, where
M = min(300, candidate count): the entry at index M-1 of the descending
sorted list (0 for an empty list). -/
def mthHighest (l : List CosScored) : ℚ :=
  ((l.insertionSort descCos).map CosScored.cos).getD (min 300 l.length - 1) 0

/-- Non-strict descending comparison on the final score; the sort key of
ranked.sort(key=..., reverse=True). -/
def descScore (a c : Scored) : Prop := c.score ≤ a.score

instance : DecidableRel descScore :=
  fun a c => inferInstanceAs (Decidable (c.score ≤ a.score))

instance : IsTotal Scored descScore := ⟨fun a c => le_total c.score a.score⟩

instance : IsTrans Scored descScore := ⟨fun _ _ _ h1 h2 => le_trans h2 h1⟩

/-- doc_map.get(doc_id): first Document row with the given id, if any. -/
def docFor (docs : List Document) (did : ℕ) : Option Document :=
  docs.find? (fun d => d.id == did)

/-- getattr(d, "url", "") with d = doc_map.get(doc_id): the document's URL,
or "" when the document row is missing. -/
def docUrl (docs : List Document) (did : ℕ) : String :=
  ((docFor docs did).map Document.url).getD ""

/-- getattr(d, "title", "") or "" with d = doc_map.get(doc_id). -/
def docTitle (docs : List Document) (did : ℕ) : String :=
  ((docFor docs did).map Document.title).getD ""

/-- is_business_query = any(t in BUSINESS_HINTS for t in q_toks). -/
def isBusinessQuery (q_toks : List String) : Bool :=
  q_toks.any (fun t => BUSINESS_HINTS.contains t)

/-- The combined_per_chunk loop of retrieve: per preselected chunk, fuse the
cosine with the positionally matching BM25 score and the URL/title prior
using the weights 0.60 / 0.25 / 0.15. -/
def combineScores (log : ℚ → ℚ) (q_toks : List String) (is_business_query : Bool)
    (docs : List Document) (prelim : List CosScored) : List Scored :=
  let bm := bm25_scores log q_toks (prelim.map (fun c => tokens c.text))
  List.zipWith (fun c bmc =>
    { cid := c.cid, text := c.text, doc_id := c.doc_id,
      score := 3/5 * c.cos + 1/4 * bmc + 3/20 *
        url_title_prior q_toks (docUrl docs c.doc_id) (docTitle docs c.doc_id)
          is_business_query }) prelim bm

/-- Update of a Python insertion-ordered dict: replacing an existing key
keeps its position, a new key is appended at the end. -/
def updIns {κ : Type} [DecidableEq κ] : List (κ × Scored) → κ → Scored → List (κ × Scored)
  | [], key, v => [(key, v)]
  | p :: rest, key, v =>
    if p.1 = key then (p.1, v) :: rest else p :: updIns rest key v

/-- dict.get(key): the value at the first (hence unique) entry with the
given key. -/
def lookup {κ : Type} [DecidableEq κ] (m : List (κ × Scored)) (key : κ) : Option Scored :=
  (m.find? (fun p => decide (p.1 = key))).map Prod.snd

/-- One iteration of the best_per_doc / by_url loops: insert the entry if
its key is new, replace the stored entry if the new score is strictly
higher. -/
def bestStep {κ : Type} [DecidableEq κ] (key : Scored → κ)
    (m : List (κ × Scored)) (s : Scored) : List (κ × Scored) :=
  match lookup m (key s) with
  | none => m ++ [(key s, s)]
  | some prev => if prev.score < s.score then updIns m (key s) s else m

/-- The dict built by folding bestStep over the scored list from the empty
dict, as the best_per_doc and by_url loops do. -/
def bestByKey {κ : Type} [DecidableEq κ] (key : Scored → κ)
    (l : List Scored) : List (κ × Scored) :=
  l.foldl (bestStep key) []

/-- dict.values() of the association list. -/
def dictValues {κ : Type} (m : List (κ × Scored)) : List Scored :=
  m.map Prod.snd

/-- best_per_doc: best chunk per document id. -/
def bestPerDoc (l : List Scored) : List (ℕ × Scored) :=
  bestByKey Scored.doc_id l

/-- The URL key used by the by_url loop. -/
def urlOf (docs : List Document) (s : Scored) : String := docUrl docs s.doc_id

/-- by_url: dedup by the owning document's URL, keeping the higher score. -/
def dedupByUrl (docs : List Document) (l : List Scored) : List (String × Scored) :=
  bestByKey (urlOf docs) l

/-- k = k or settings.top_k: Python or treats both None and 0 as falsy. -/
def effK (k : Option ℕ) (top_k : ℕ) : ℕ :=
  match k with
  | none => top_k
  | some 0 => top_k
  | some (n+1) => n+1

/-- The rows loaded for the tenant. -/
def rowsFor (chunks : List Chunk) (tenant : String) : List Chunk :=
  chunks.filter (fun c => decide (c.tenant = tenant))

/-- retrieve from app/retrieval.py.  The external collaborators are
parameters: sqrt and log stand for math.sqrt / math.log, embed for the
embedding provider (embed_texts on a one-element batch), top_k for
settings.top_k, chunks and docs for the two database tables.  The result is
none when the call raises (a stored embedding failed to parse), otherwise
the ranked top-k list. -/
def retrieve (sqrt log : ℚ → ℚ) (embed : String → List ℚ) (top_k : ℕ)
    (chunks : List Chunk) (docs : List Document)
    (tenant query : String) (k : Option ℕ) : Option (List Scored) :=
  let kk := effK k top_k
  let q_vec := embed query
  let q_toks := tokens query
  let isB := isBusinessQuery q_toks
  let rows := rowsFor chunks tenant
  if rows.isEmpty then some []
  else
    (cosScored sqrt q_vec rows).map (fun cs =>
      let prelim := preselect cs
      let combined := combineScores log q_toks isB docs prelim
      let best := dictValues (bestPerDoc combined)
      let deduped := dictValues (dedupByUrl docs best)
      (deduped.insertionSort descScore).take kk)

/-- The pipeline of retrieve up to and including score fusion, as a function
of the same inputs. -/
def combinedOf (sqrt log : ℚ → ℚ) (embed : String → List ℚ)
    (chunks : List Chunk) (docs : List Document)
    (tenant query : String) : Option (List Scored) :=
  (cosScored sqrt (embed query) (rowsFor chunks tenant)).map
    (fun cs =>
      combineScores log (tokens query) (isBusinessQuery (tokens query)) docs
        (preselect cs))

/-- A concrete stand-in for the natural logarithm, sharing with it the one
property the theorems below need: it is strictly positive on (1, ∞). -/
def logStub : ℚ → ℚ := fun x => if 1 < x then 1 else 0

/-- A concrete stand-in for math.sqrt; the pipeline theorems hold for every
sqrt function, so the identity serves for witnesses. -/
def sqrtStub : ℚ → ℚ := fun x => x

/-! ### C8: the prior adjustment is clamped to [-0.6, 0.9] -/

/-- C8: for every query token list, URL, title and business-query flag, the
prior returned by url_title_prior lies in the closed interval
[-0.6, 0.9] = [-(3/5), 9/10], however much unclamped weight the heuristic
rules accumulate. -/
theorem prior_bounded (q_toks : List String) (url title : String)
    (is_business_query : Bool) :
    -(3/5) ≤ url_title_prior q_toks url title is_business_query ∧
      url_title_prior q_toks url title is_business_query ≤ 9/10 := by
  simp only [url_title_prior]
  exact ⟨le_max_right _ _, max_le (min_le_right _ _) (by norm_num)⟩

/-! ### C1: bm25_scores versus the reference BM25 of the spec -/

/-- C1 counterexample: on the pool [["abc"], [], []] the average chunk
length is 1/3 < 1, so the source's division by max(1.0, avgdl) differs from
the reference formula's division by avgdl: the first score is
logStub(8/3) * 1 = 1 for the code but logStub(8/3) * 11/20 for the
reference (and ln(8/3) ≠ 0 for the real logarithm as well, since 8/3 > 1).
Hence bm25_scores does not equal the reference BM25 on every input. -/
theorem bm25_spec_mismatch :
    bm25_scores logStub ["abc"] [["abc"], [], []] ≠
      bm25Spec logStub ["abc"] [["abc"], [], []] := by
  have hc : List.count "abc" ["abc"] = 1 := by decide
  have hm : (["abc"].contains "abc") = true := by decide
  have hdf : df [["abc"], [], []] "abc" = 1 := by decide
  have hdfs : dfSpec [["abc"], [], []] "abc" = 1 := by decide
  have havg : avgdl [["abc"], [], []] = 1/3 := by
    simp only [avgdl, List.map_cons, List.map_nil, List.sum_cons, List.sum_nil]
    norm_num
  have havgs : avgdlSpec [["abc"], [], []] = 1/3 := by
    simp only [avgdlSpec, List.map_cons, List.map_nil, List.sum_cons, List.sum_nil]
    norm_num
  simp only [bm25_scores, bm25Spec, hc, hm, hdf, hdfs, havg, havgs, idf, idfSpec,
    List.isEmpty_cons, List.isEmpty_nil, Bool.false_or, Bool.or_false,
    List.map_cons, List.map_nil, List.sum_cons, List.sum_nil, List.length_cons,
    List.length_nil, logStub, k1, b]
  norm_num

/-- C1 as amended: bm25_scores agrees with the reference BM25 of the spec
whenever the pool's average token count is at least 1 (so that the source's
max(1.0, avgdl) clamp is inactive), and an empty query token list or empty
candidate list yields the all-zero score vector. -/
theorem bm25_matches_spec (log : ℚ → ℚ) (q_toks : List String)
    (pool : List (List String)) :
    (1 ≤ avgdl pool → bm25_scores log q_toks pool = bm25Spec log q_toks pool) ∧
      ((pool.isEmpty || q_toks.isEmpty) = true →
        bm25_scores log q_toks pool = List.replicate pool.length 0) := by
  constructor
  · intro h
    have hpool : pool ≠ [] := by
      intro he
      rw [he] at h
      simp only [avgdl, List.map_nil, List.sum_nil, List.length_nil] at h
      norm_num at h
    have hlen : 1 ≤ pool.length := List.length_pos.mpr hpool
    have hmaxlen : max 1 pool.length = pool.length := Nat.max_eq_right hlen
    have havg : avgdl pool = avgdlSpec pool := by
      simp only [avgdl, avgdlSpec, hmaxlen]
    have hclamp : max (1 : ℚ) (avgdl pool) = avgdlSpec pool := by
      rw [max_eq_right h, havg]
    have hpe : pool.isEmpty = false := by
      cases pool with
      | nil => exact absurd rfl hpool
      | cons a l => rfl
    by_cases hq : q_toks.isEmpty
    · simp only [bm25_scores, bm25Spec, hq, Bool.or_true, if_true]
    · have hqe : q_toks.isEmpty = false := eq_false_of_ne_true hq
      simp only [bm25_scores, bm25Spec, hpe, hqe, Bool.or_self, Bool.false_or,
        if_false, Bool.false_eq_true]
      refine List.map_congr_left (fun toks _ => ?_)
      refine congrArg List.sum (List.map_congr_left (fun t _ => ?_))
      by_cases hmem : t ∈ toks
      · have h1 : ¬ toks.count t = 0 := by
          simpa [List.count_eq_zero] using hmem
        have h2 : toks.contains t = true := by simpa using hmem
        simp only [h1, h2, if_false, if_true, ite_true, ite_false, idf, idfSpec,
          df, dfSpec, hclamp]
      · have h1 : toks.count t = 0 := List.count_eq_zero.mpr hmem
        have h2 : ¬ toks.contains t = true := by simpa using hmem
        simp [h1, h2]
  · intro h
    simp only [bm25_scores, h, if_true]

/-- Witness for bm25_matches_spec: on the one-chunk pool [["abc"]] the
average length is 1, so the code and the reference agree there; and with an
empty query token list the result is the all-zero vector. -/
theorem bm25_matches_spec_witness :
    (1 ≤ avgdl [["abc"]] ∧
      bm25_scores logStub ["abc"] [["abc"]] = bm25Spec logStub ["abc"] [["abc"]]) ∧
      ((([["abc"]] : List (List String)).isEmpty || ([] : List String).isEmpty) = true ∧
        bm25_scores logStub [] [["abc"]] = List.replicate 1 0) := by
  have h : (1 : ℚ) ≤ avgdl [["abc"]] := by
    simp only [avgdl, List.map_cons, List.map_nil, List.sum_cons, List.sum_nil]
    norm_num
  have he : ((([["abc"]] : List (List String)).isEmpty || ([] : List String).isEmpty) = true) := by decide
  exact ⟨⟨h, (bm25_matches_spec logStub ["abc"] [["abc"]]).1 h⟩,
    ⟨he, (bm25_matches_spec logStub [] [["abc"]]).2 he⟩⟩

/-! ### C10: bm25_scores is non-negative -/

/-- C10: provided log is strictly positive on (1, ∞) — as the natural
logarithm is — every score returned by bm25_scores is non-negative: the idf
argument (N - df + 0.5)/(df + 0.5) + 1 always exceeds 1 because
0 ≤ df ≤ N, absent tokens contribute 0, and each present token contributes
a positive idf times a non-negative fraction. -/
theorem bm25_nonneg (log : ℚ → ℚ) (hlog : ∀ x : ℚ, 1 < x → 0 < log x)
    (q_toks : List String) (pool : List (List String)) :
    ∀ s ∈ bm25_scores log q_toks pool, 0 ≤ s := by
  intro s hs
  simp only [bm25_scores] at hs
  by_cases hempty : (pool.isEmpty || q_toks.isEmpty) = true
  · rw [if_pos hempty] at hs
    exact le_of_eq (List.eq_of_mem_replicate hs).symm
  · rw [if_neg hempty] at hs
    obtain ⟨toks, -, rfl⟩ := List.mem_map.mp hs
    refine List.sum_nonneg ?_
    intro x hx
    obtain ⟨qt, -, rfl⟩ := List.mem_map.mp hx
    by_cases hc : toks.count qt = 0
    · simp [hc]
    · rw [if_neg hc]
      have hN : df pool qt ≤ pool.length := List.length_filter_le _ _
      have hNq : (df pool qt : ℚ) ≤ (pool.length : ℚ) := Nat.cast_le.mpr hN
      have hdfq : (0 : ℚ) ≤ (df pool qt : ℚ) := Nat.cast_nonneg _
      have harg : 1 < ((pool.length : ℚ) - (df pool qt : ℚ) + 1/2) /
          ((df pool qt : ℚ) + 1/2) + 1 := by
        have hnum : (0 : ℚ) < (pool.length : ℚ) - (df pool qt : ℚ) + 1/2 := by
          linarith
        have hden : (0 : ℚ) < (df pool qt : ℚ) + 1/2 := by linarith
        linarith [div_pos hnum hden]
      have hidf : 0 < idf log pool.length (df pool qt) := hlog _ harg
      have hcnt : (1 : ℚ) ≤ (toks.count qt : ℚ) := by
        exact_mod_cast Nat.one_le_iff_ne_zero.mpr hc
      have hx0 : (0 : ℚ) ≤ b * (toks.length : ℚ) / max 1 (avgdl pool) := by
        refine div_nonneg (mul_nonneg (by norm_num [b]) (Nat.cast_nonneg _)) ?_
        exact le_trans zero_le_one (le_max_left _ _)
      have hden : (0 : ℚ) < (toks.count qt : ℚ) +
          k1 * (1 - b + b * (toks.length : ℚ) / max 1 (avgdl pool)) := by
        have : (1 : ℚ) - b = 1/4 := by norm_num [b]
        rw [this]
        have hk : k1 = 6/5 := rfl
        nlinarith [hx0, hcnt]
      have hnum : (0 : ℚ) ≤ (toks.count qt : ℚ) * (k1 + 1) := by
        refine mul_nonneg (by linarith) (by norm_num [k1])
      exact mul_nonneg hidf.le (div_nonneg hnum hden.le)

/-- Witness for bm25_nonneg: logStub is strictly positive on (1, ∞), and the
scores of a small concrete pool are all non-negative. -/
theorem bm25_nonneg_witness :
    (∀ x : ℚ, 1 < x → 0 < logStub x) ∧
      ∀ s ∈ bm25_scores logStub ["abc"] [["abc"], []], 0 ≤ s := by
  have hlog : ∀ x : ℚ, 1 < x → 0 < logStub x := by
    intro x hx
    simp only [logStub, if_pos hx]
    norm_num
  exact ⟨hlog, bm25_nonneg logStub hlog ["abc"] [["abc"], []]⟩

/-! ### Library: invariants of the insertion-ordered dict folds -/

section DictLemmas

variable {κ : Type} [DecidableEq κ]

theorem updIns_mem {m : List (κ × Scored)} {key : κ} {v : Scored}
    {p : κ × Scored} (hp : p ∈ updIns m key v) : p ∈ m ∨ p = (key, v) := by
  induction m with
  | nil => simpa [updIns] using hp
  | cons q rest ih =>
    by_cases hq : q.1 = key
    · rw [updIns, if_pos hq] at hp
      rcases List.mem_cons.mp hp with h | h
      · exact Or.inr (by rw [h, hq])
      · exact Or.inl (List.mem_cons_of_mem _ h)
    · rw [updIns, if_neg hq] at hp
      rcases List.mem_cons.mp hp with h | h
      · exact Or.inl (h ▸ List.mem_cons_self _ _)
      · rcases ih h with h2 | h2
        · exact Or.inl (List.mem_cons_of_mem _ h2)
        · exact Or.inr h2

theorem updIns_fst_of_mem {m : List (κ × Scored)} {key : κ} (v : Scored)
    (hk : key ∈ m.map Prod.fst) :
    (updIns m key v).map Prod.fst = m.map Prod.fst := by
  induction m with
  | nil => simp at hk
  | cons q rest ih =>
    by_cases hq : q.1 = key
    · rw [updIns, if_pos hq]
      simp
    · rw [updIns, if_neg hq]
      have hk2 : key ∈ rest.map Prod.fst := by
        rcases List.mem_map.mp hk with ⟨p, hp, hfst⟩
        rcases List.mem_cons.mp hp with h | h
        · exact absurd (h ▸ hfst) hq
        · exact List.mem_map.mpr ⟨p, h, hfst⟩
      simp [ih hk2]

theorem lookup_updIns_self (m : List (κ × Scored)) (key : κ) (v : Scored) :
    lookup (updIns m key v) key = some v := by
  induction m with
  | nil => simp [updIns, lookup]
  | cons q rest ih =>
    by_cases hq : q.1 = key
    · rw [updIns, if_pos hq]
      simp [lookup, List.find?, hq]
    · rw [updIns, if_neg hq]
      simpa [lookup, List.find?, hq] using ih

theorem lookup_updIns_ne {m : List (κ × Scored)} {key k2 : κ} (v : Scored)
    (hne : k2 ≠ key) : lookup (updIns m key v) k2 = lookup m k2 := by
  induction m with
  | nil => simp [updIns, lookup, List.find?, Ne.symm hne]
  | cons q rest ih =>
    by_cases hq : q.1 = key
    · rw [updIns, if_pos hq]
      have : ¬ q.1 = k2 := by rw [hq]; exact Ne.symm hne
      simp [lookup, List.find?, this]
    · rw [updIns, if_neg hq]
      by_cases hqk : q.1 = k2
      · simp [lookup, List.find?, hqk]
      · simpa [lookup, List.find?, hqk] using ih

theorem lookup_some_mem {m : List (κ × Scored)} {key : κ} {v : Scored}
    (h : lookup m key = some v) : (key, v) ∈ m := by
  rcases Option.map_eq_some'.mp h with ⟨p, hfind, hsnd⟩
  have hfst : p.1 = key := by
    have := List.find?_some hfind
    simpa using this
  have hpe : p = (key, v) := Prod.ext hfst hsnd
  exact hpe ▸ List.mem_of_find?_eq_some hfind

theorem lookup_none_iff {m : List (κ × Scored)} {key : κ} :
    lookup m key = none ↔ key ∉ m.map Prod.fst := by
  constructor
  · intro h hk
    rcases List.mem_map.mp hk with ⟨p, hp, hfst⟩
    have hfind : List.find? (fun p => decide (p.1 = key)) m = none := by
      simpa [lookup, Option.map_eq_none'] using h
    have := List.find?_eq_none.mp hfind p hp
    simp [hfst] at this
  · intro h
    simp only [lookup, Option.map_eq_none']
    refine List.find?_eq_none.mpr (fun p hp => ?_)
    simp only [decide_eq_true_eq]
    intro hfst
    exact h (List.mem_map.mpr ⟨p, hp, hfst⟩)

theorem lookup_of_mem_nodup {m : List (κ × Scored)} {p : κ × Scored}
    (hnd : (m.map Prod.fst).Nodup) (hp : p ∈ m) : lookup m p.1 = some p.2 := by
  induction m with
  | nil => simp at hp
  | cons q rest ih =>
    rw [List.map_cons, List.nodup_cons] at hnd
    rcases List.mem_cons.mp hp with h | h
    · simp [lookup, List.find?, h]
    · have hne : ¬ q.1 = p.1 := by
        intro he
        exact hnd.1 (he ▸ List.mem_map.mpr ⟨p, h, rfl⟩)
      simpa [lookup, List.find?, hne] using ih hnd.2 h

variable {key : Scored → κ}

theorem bestStep_keys_nodup {m : List (κ × Scored)} {s : Scored}
    (hnd : (m.map Prod.fst).Nodup) : ((bestStep key m s).map Prod.fst).Nodup := by
  cases hl : lookup m (key s) with
  | none =>
    have hk : key s ∉ m.map Prod.fst := lookup_none_iff.mp hl
    simp only [bestStep, hl, List.map_append, List.map_cons, List.map_nil]
    rw [List.nodup_append]
    exact ⟨hnd, List.nodup_singleton _,
      fun a ha hb => hk ((List.mem_singleton.mp hb) ▸ ha)⟩
  | some prev =>
    simp only [bestStep, hl]
    by_cases hlt : prev.score < s.score
    · rw [if_pos hlt]
      have hk : key s ∈ m.map Prod.fst := by
        by_contra hk
        rw [lookup_none_iff.mpr hk] at hl
        exact Option.noConfusion hl
      rw [updIns_fst_of_mem s hk]
      exact hnd
    · rw [if_neg hlt]; exact hnd

theorem bestStep_consistent {m : List (κ × Scored)} {s : Scored}
    (hc : ∀ p ∈ m, p.1 = key p.2) :
    ∀ p ∈ bestStep key m s, p.1 = key p.2 := by
  intro p hp
  cases hl : lookup m (key s) with
  | none =>
    simp only [bestStep, hl] at hp
    rcases List.mem_append.mp hp with h | h
    · exact hc p h
    · rw [List.mem_singleton.mp h]
  | some prev =>
    simp only [bestStep, hl] at hp
    by_cases hlt : prev.score < s.score
    · rw [if_pos hlt] at hp
      rcases updIns_mem hp with h | h
      · exact hc p h
      · rw [h]
    · rw [if_neg hlt] at hp
      exact hc p hp

theorem bestStep_mem {m : List (κ × Scored)} {s : Scored} {p : κ × Scored}
    (hp : p ∈ bestStep key m s) : p ∈ m ∨ p = (key s, s) := by
  cases hl : lookup m (key s) with
  | none =>
    simp only [bestStep, hl] at hp
    rcases List.mem_append.mp hp with h | h
    · exact Or.inl h
    · exact Or.inr (List.mem_singleton.mp h)
  | some prev =>
    simp only [bestStep, hl] at hp
    by_cases hlt : prev.score < s.score
    · rw [if_pos hlt] at hp
      exact updIns_mem hp
    · rw [if_neg hlt] at hp
      exact Or.inl hp

theorem bestStep_lookup_mono {m : List (κ × Scored)} {s : Scored} {k : κ}
    {v : Scored} (hl : lookup m k = some v) :
    ∃ w, lookup (bestStep key m s) k = some w ∧ v.score ≤ w.score := by
  cases hls : lookup m (key s) with
  | none =>
    refine ⟨v, ?_, le_refl _⟩
    simp only [bestStep, hls]
    simp only [lookup, List.find?_append]
    simp only [lookup] at hl
    rcases Option.map_eq_some'.mp hl with ⟨p, hfind, hsnd⟩
    simp [hfind, hsnd]
  | some prev =>
    simp only [bestStep, hls]
    by_cases hk : k = key s
    · have hpv : prev = v := by
        rw [← hk] at hls
        rw [hl] at hls
        exact (Option.some_inj.mp hls).symm
      by_cases hlt : prev.score < s.score
      · rw [if_pos hlt]
        refine ⟨s, ?_, ?_⟩
        · rw [hk]; exact lookup_updIns_self m (key s) s
        · rw [← hpv]; exact le_of_lt hlt
      · rw [if_neg hlt]
        exact ⟨v, hl, le_refl _⟩
    · by_cases hlt : prev.score < s.score
      · rw [if_pos hlt]
        exact ⟨v, (lookup_updIns_ne s hk).trans hl, le_refl _⟩
      · rw [if_neg hlt]
        exact ⟨v, hl, le_refl _⟩

theorem bestStep_lookup_new (m : List (κ × Scored)) (s : Scored) :
    ∃ w, lookup (bestStep key m s) (key s) = some w ∧ s.score ≤ w.score := by
  cases hls : lookup m (key s) with
  | none =>
    refine ⟨s, ?_, le_refl _⟩
    simp only [bestStep, hls]
    simp only [lookup, List.find?_append]
    have hfind : List.find? (fun p => decide (p.1 = key s)) m = none := by
      simpa [lookup, Option.map_eq_none'] using hls
    simp [hfind, List.find?]
  | some prev =>
    simp only [bestStep, hls]
    by_cases hlt : prev.score < s.score
    · rw [if_pos hlt]
      exact ⟨s, lookup_updIns_self m (key s) s, le_refl _⟩
    · rw [if_neg hlt]
      exact ⟨prev, hls, le_of_not_lt hlt⟩

theorem foldl_keys_nodup {l : List Scored} {m : List (κ × Scored)}
    (hnd : (m.map Prod.fst).Nodup) :
    ((l.foldl (bestStep key) m).map Prod.fst).Nodup := by
  induction l generalizing m with
  | nil => exact hnd
  | cons s rest ih => exact ih (bestStep_keys_nodup hnd)

theorem foldl_consistent {l : List Scored} {m : List (κ × Scored)}
    (hc : ∀ p ∈ m, p.1 = key p.2) :
    ∀ p ∈ l.foldl (bestStep key) m, p.1 = key p.2 := by
  induction l generalizing m with
  | nil => exact hc
  | cons s rest ih => exact ih (bestStep_consistent hc)

theorem foldl_mem {l : List Scored} {m : List (κ × Scored)} {p : κ × Scored}
    (hp : p ∈ l.foldl (bestStep key) m) : p ∈ m ∨ p.2 ∈ l := by
  induction l generalizing m with
  | nil => exact Or.inl hp
  | cons s rest ih =>
    rcases ih hp with h | h
    · rcases bestStep_mem h with h2 | h2
      · exact Or.inl h2
      · exact Or.inr (by rw [h2]; exact List.mem_cons_self _ _)
    · exact Or.inr (List.mem_cons_of_mem _ h)

theorem foldl_lookup_mono {l : List Scored} {m : List (κ × Scored)} {k : κ}
    {v : Scored} (hl : lookup m k = some v) :
    ∃ w, lookup (l.foldl (bestStep key) m) k = some w ∧ v.score ≤ w.score := by
  induction l generalizing m v with
  | nil => exact ⟨v, hl, le_refl _⟩
  | cons s rest ih =>
    rcases @bestStep_lookup_mono κ _ key _ s _ _ hl with ⟨w1, hw1, hle1⟩
    rcases ih hw1 with ⟨w, hw, hle⟩
    exact ⟨w, hw, le_trans hle1 hle⟩

theorem foldl_covers {l : List Scored} {m : List (κ × Scored)} {s : Scored}
    (hs : s ∈ l) :
    ∃ w, lookup (l.foldl (bestStep key) m) (key s) = some w ∧ s.score ≤ w.score := by
  induction l generalizing m with
  | nil => simp at hs
  | cons s0 rest ih =>
    rcases List.mem_cons.mp hs with h | h
    · subst h
      rcases @bestStep_lookup_new κ _ key m s with ⟨w1, hw1, hle1⟩
      rcases @foldl_lookup_mono κ _ key rest _ _ _ hw1 with ⟨w, hw, hle⟩
      exact ⟨w, hw, le_trans hle1 hle⟩
    · exact ih h

theorem foldl_max {l : List Scored} {m : List (κ × Scored)} {p : κ × Scored}
    (hnd : (m.map Prod.fst).Nodup)
    (hp : p ∈ l.foldl (bestStep key) m) :
    ∀ s ∈ l, key s = p.1 → s.score ≤ p.2.score := by
  induction l generalizing m with
  | nil => intro s hs; simp at hs
  | cons s0 rest ih =>
    intro s hs hk
    rcases List.mem_cons.mp hs with h | h
    · subst h
      rcases @bestStep_lookup_new κ _ key m s with ⟨w1, hw1, hle1⟩
      rcases @foldl_lookup_mono κ _ key rest _ _ _ hw1 with ⟨w, hw, hle⟩
      have hpl : lookup (rest.foldl (bestStep key) (bestStep key m s)) p.1 = some p.2 :=
        lookup_of_mem_nodup (foldl_keys_nodup (bestStep_keys_nodup hnd)) hp
      rw [hk] at hw
      rw [hw] at hpl
      have : w = p.2 := Option.some_inj.mp hpl
      exact le_trans hle1 (le_trans hle (le_of_eq (congrArg Scored.score this)))
    · exact ih (bestStep_keys_nodup hnd) hp s h hk

theorem bestByKey_keys_nodup (l : List Scored) :
    ((bestByKey key l).map Prod.fst).Nodup :=
  foldl_keys_nodup (by simp)

theorem bestByKey_consistent {l : List Scored} :
    ∀ p ∈ bestByKey key l, p.1 = key p.2 :=
  foldl_consistent (by simp)

theorem bestByKey_mem {l : List Scored} {p : κ × Scored}
    (hp : p ∈ bestByKey key l) : p.2 ∈ l := by
  rcases foldl_mem hp with h | h
  · simp at h
  · exact h

theorem bestByKey_max {l : List Scored} {p : κ × Scored}
    (hp : p ∈ bestByKey key l) :
    ∀ s ∈ l, key s = p.1 → s.score ≤ p.2.score :=
  foldl_max (by simp) hp

theorem bestByKey_covers {l : List Scored} {s : Scored} (hs : s ∈ l) :
    ∃ w, lookup (bestByKey key l) (key s) = some w ∧ s.score ≤ w.score :=
  foldl_covers hs

theorem bestByKey_keys_toFinset (l : List Scored) :
    ((bestByKey key l).map Prod.fst).toFinset = (l.map key).toFinset := by
  ext k
  simp only [List.mem_toFinset]
  constructor
  · intro hk
    rcases List.mem_map.mp hk with ⟨p, hp, hfst⟩
    exact List.mem_map.mpr
      ⟨p.2, bestByKey_mem hp, by rw [← bestByKey_consistent p hp, hfst]⟩
  · intro hk
    rcases List.mem_map.mp hk with ⟨s, hs, hkey⟩
    rcases @bestByKey_covers κ _ key l s hs with ⟨w, hw, -⟩
    exact List.mem_map.mpr ⟨(key s, w), lookup_some_mem hw, hkey⟩

theorem bestByKey_length (l : List Scored) :
    (bestByKey key l).length = (l.map key).toFinset.card := by
  have h1 : (bestByKey key l).length = ((bestByKey key l).map Prod.fst).length := by
    rw [List.length_map]
  rw [h1, ← @bestByKey_keys_toFinset κ _ key l,
    List.toFinset_card_of_nodup (bestByKey_keys_nodup l)]

omit [DecidableEq κ] in
theorem dictValues_key_eq_fst (m : List (κ × Scored))
    (hc : ∀ p ∈ m, p.1 = key p.2) :
    (dictValues m).map key = m.map Prod.fst := by
  simp only [dictValues, List.map_map]
  exact List.map_congr_left (fun p hp => (hc p hp).symm)

theorem bestByKey_values_key_nodup (l : List Scored) :
    ((dictValues (bestByKey key l)).map key).Nodup := by
  rw [dictValues_key_eq_fst _ bestByKey_consistent]
  exact bestByKey_keys_nodup l

end DictLemmas

/-! ### C2: score fusion weights and best-chunk-per-document aggregation -/

/-- Modelled from the spec: final = 0.60*cosine + 0.25*bm25 + 0.15*prior. -/
def fusedSpec (cos bm prior : ℚ) : ℚ := 3/5 * cos + 1/4 * bm + 3/20 * prior

/-- C2: per preselected chunk the fused score produced by the combine loop
is exactly 0.60*cosine + 0.25*bm25 + 0.15*prior (the BM25 score matched
positionally, the prior computed from the owning document's URL and title);
and the aggregation keeps, for each document id that occurs, exactly one
entry: a chunk of that document drawn from the combined list whose fused
score is maximal among that document's chunks. -/
theorem fused_and_best_per_doc (log : ℚ → ℚ) (q_toks : List String)
    (is_business_query : Bool) (docs : List Document) (prelim : List CosScored) :
    ((combineScores log q_toks is_business_query docs prelim).map Scored.score =
      List.zipWith
        (fun c bmc => fusedSpec c.cos bmc
          (url_title_prior q_toks (docUrl docs c.doc_id) (docTitle docs c.doc_id)
            is_business_query))
        prelim (bm25_scores log q_toks (prelim.map (fun c => tokens c.text)))) ∧
    (∀ p ∈ bestPerDoc (combineScores log q_toks is_business_query docs prelim),
      p.2 ∈ combineScores log q_toks is_business_query docs prelim ∧
      p.2.doc_id = p.1 ∧
      ∀ s ∈ combineScores log q_toks is_business_query docs prelim,
        s.doc_id = p.1 → s.score ≤ p.2.score) ∧
    (∀ s ∈ combineScores log q_toks is_business_query docs prelim,
      ∃ p ∈ bestPerDoc (combineScores log q_toks is_business_query docs prelim),
        p.1 = s.doc_id) := by
  refine ⟨?_, ?_, ?_⟩
  · simp only [combineScores]
    rw [List.map_zipWith]
    rfl
  · intro p hp
    refine ⟨bestByKey_mem hp, (bestByKey_consistent p hp).symm, ?_⟩
    intro s hs hsd
    exact bestByKey_max hp s hs hsd
  · intro s hs
    rcases @bestByKey_covers ℕ _ Scored.doc_id _ s hs with ⟨w, hw, -⟩
    exact ⟨(s.doc_id, w), lookup_some_mem hw, rfl⟩

/-- The one-chunk instance used by witnesses: one preselected chunk of
document 10 with cosine 0, an empty query token list, no document rows. -/
def prelim0 : List CosScored := [⟨1, "a", 10, 0⟩]

/-- The combined list of the one-chunk witness instance. -/
def comb0 : List Scored := combineScores logStub [] false [] prelim0

/-- The single fused entry of the one-chunk witness instance. -/
def s0 : Scored :=
  ⟨1, "a", 10, fusedSpec 0 0 (url_title_prior [] (docUrl [] 10) (docTitle [] 10) false)⟩

/-- Witness for fused_and_best_per_doc, instantiated on the one-chunk
instance: the map equation holds there, and the aggregated entry for
document 10 is the chunk itself, maximal among its document's chunks. -/
theorem fused_and_best_per_doc_witness :
    (comb0.map Scored.score =
      List.zipWith
        (fun c bmc => fusedSpec c.cos bmc
          (url_title_prior [] (docUrl [] c.doc_id) (docTitle [] c.doc_id) false))
        prelim0 (bm25_scores logStub [] (prelim0.map (fun c => tokens c.text)))) ∧
      s0 ∈ comb0 ∧ s0.doc_id = 10 ∧ s0.score ≤ s0.score := by
  have h := fused_and_best_per_doc logStub [] false [] prelim0
  have hmem : ((10 : ℕ), s0) ∈ bestPerDoc comb0 := by
    rw [show bestPerDoc comb0 = [((10 : ℕ), s0)] from rfl]
    exact List.mem_singleton.mpr rfl
  have hs0 : s0 ∈ comb0 := by
    rw [show comb0 = [s0] from rfl]
    exact List.mem_singleton.mpr rfl
  rcases h.2.1 ((10 : ℕ), s0) hmem with ⟨hm, hid, hmax⟩
  exact ⟨h.1, hm, hid, hmax s0 hs0 hid⟩

/-! ### C9: empty tenant short-circuits to an empty result -/

/-- C9: if the tenant has zero stored chunks, retrieve returns some [] — an
empty sequence, no failure — for every query and k, and for every behaviour
of the sqrt/log/embedding collaborators and of the later pipeline stages
(none of which can influence the result, since the function short-circuits
before preselection, BM25, priors and aggregation). -/
theorem retrieve_empty_tenant (sqrt log : ℚ → ℚ) (embed : String → List ℚ)
    (top_k : ℕ) (chunks : List Chunk) (docs : List Document)
    (tenant query : String) (k : Option ℕ)
    (h : rowsFor chunks tenant = []) :
    retrieve sqrt log embed top_k chunks docs tenant query k = some [] := by
  simp [retrieve, h]

/-- Witness for retrieve_empty_tenant: a store holding only another
tenant's chunk yields some [] for tenant x. -/
theorem retrieve_empty_tenant_witness :
    rowsFor [⟨1, "a", some [1], 10, "y"⟩] "x" = [] ∧
      retrieve sqrtStub logStub (fun _ => []) 6 [⟨1, "a", some [1], 10, "y"⟩]
        [] "x" "q" none = some [] := by
  have h : rowsFor [(⟨1, "a", some [1], 10, "y"⟩ : Chunk)] "x" = [] := by decide
  exact ⟨h, retrieve_empty_tenant sqrtStub logStub (fun _ => []) 6 _ [] "x" "q" none h⟩

/-! ### C3: an unparseable stored embedding aborts the whole call -/

/-- Helper: a row whose stored embedding fails to parse makes the whole
cos_scored loop raise. -/
theorem cosScored_eq_none {sqrt : ℚ → ℚ} {q_vec : List ℚ} {rows : List Chunk}
    {r : Chunk} (hr : r ∈ rows) (hbad : r.embedding = none) :
    cosScored sqrt q_vec rows = none := by
  induction rows with
  | nil => simp at hr
  | cons q rest ih =>
    rcases List.mem_cons.mp hr with h | h
    · subst h
      simp [cosScored, hbad]
    · cases hq : q.embedding with
      | none => simp [cosScored, hq]
      | some e => simp [cosScored, hq, ih h]

/-- C3 counterexample: a store for tenant t with one good chunk and one
chunk whose embedding does not parse.  retrieve returns none — the
exception from the parse aborts the whole call — instead of skipping the
bad chunk and completing over the remaining chunk as the claim states. -/
theorem retrieve_not_skipping_bad_embedding :
    retrieve sqrtStub logStub (fun _ => [1]) 6
      [⟨1, "good", some [1], 10, "t"⟩, ⟨2, "bad", none, 11, "t"⟩]
      [] "t" "q" none = none := by decide

/-- C3 as amended: a stored embedding that fails to parse is not skipped —
whenever any row of the tenant's chunk set has an unparseable embedding,
the whole retrieve call fails (returns none), and no result (with or
without the bad chunk) is produced. -/
theorem retrieve_none_of_bad_embedding (sqrt log : ℚ → ℚ)
    (embed : String → List ℚ) (top_k : ℕ) (chunks : List Chunk)
    (docs : List Document) (tenant query : String) (k : Option ℕ) (r : Chunk)
    (hr : r ∈ rowsFor chunks tenant) (hbad : r.embedding = none) :
    retrieve sqrt log embed top_k chunks docs tenant query k = none := by
  have hne : rowsFor chunks tenant ≠ [] := List.ne_nil_of_mem hr
  have hie : (rowsFor chunks tenant).isEmpty = false := by
    cases hrws : rowsFor chunks tenant with
    | nil => exact absurd hrws hne
    | cons a l => rfl
  simp [retrieve, hie, cosScored_eq_none hr hbad]

/-- Witness for retrieve_none_of_bad_embedding at the two-chunk store: the
second row is in the tenant's rows, its embedding is none, and retrieve
fails. -/
theorem retrieve_none_of_bad_embedding_witness :
    (⟨2, "bad", none, 11, "t"⟩ : Chunk) ∈
        rowsFor [⟨1, "good", some [1], 10, "t"⟩, ⟨2, "bad", none, 11, "t"⟩] "t" ∧
      retrieve sqrtStub logStub (fun _ => [2]) 7
        [⟨1, "good", some [1], 10, "t"⟩, ⟨2, "bad", none, 11, "t"⟩]
        [] "t" "qq" (some 2) = none := by
  have hr : (⟨2, "bad", none, 11, "t"⟩ : Chunk) ∈
      rowsFor [⟨1, "good", some [1], 10, "t"⟩, ⟨2, "bad", none, 11, "t"⟩] "t" := by
    decide
  exact ⟨hr, retrieve_none_of_bad_embedding sqrtStub logStub (fun _ => [2]) 7 _ []
    "t" "qq" (some 2) _ hr rfl⟩

/-! ### C7: preselection size and boundary monotonicity -/

/-- The 301-candidate pool, all with cosine similarity 1, of the C7
counterexample. -/
def pool301 : List CosScored := (List.range 301).map (fun i => ⟨i, "", 0, 1⟩)

/-- C7 counterexample: on a pool of 301 candidates that all tie at
similarity 1, the Mth-highest similarity (M = 300) is 1 and every candidate
reaches it, but preselect keeps only 300 entries, so the kept set cannot
include every candidate whose similarity is ≥ the Mth-highest. -/
theorem preselect_drops_tied_boundary :
    ¬ (∀ c ∈ pool301, mthHighest pool301 ≤ c.cos → c ∈ preselect pool301) := by
  intro hall
  have hcos : ∀ c ∈ pool301, c.cos = 1 := by
    intro c hc
    rcases List.mem_map.mp hc with ⟨i, -, rfl⟩
    rfl
  have hlen : pool301.length = 301 := by
    simp [pool301]
  have hslen : (pool301.insertionSort descCos).length = 301 := by
    rw [List.length_insertionSort, hlen]
  have hnd : pool301.Nodup := by
    refine List.Nodup.map ?_ (List.nodup_range 301)
    intro i j hij
    simpa using congrArg CosScored.cid hij
  have hmth : mthHighest pool301 = 1 := by
    have h299 : (299 : ℕ) <
        ((pool301.insertionSort descCos).map CosScored.cos).length := by
      rw [List.length_map, hslen]
      norm_num
    have h299b : (299 : ℕ) < (pool301.insertionSort descCos).length := by
      rw [hslen]; norm_num
    have hM : min 300 pool301.length - 1 = 299 := by rw [hlen]; decide
    rw [mthHighest, hM, List.getD_eq_getElem _ _ h299, List.getElem_map]
    exact hcos _ ((List.mem_insertionSort descCos).mp (List.getElem_mem h299b))
  have hsub : pool301.toFinset ⊆ (preselect pool301).toFinset := by
    intro c hc
    have hcm := List.mem_toFinset.mp hc
    exact List.mem_toFinset.mpr
      (hall c hcm (by rw [hmth, hcos c hcm]))
  have hcard1 : pool301.toFinset.card = 301 := by
    rw [List.toFinset_card_of_nodup hnd, hlen]
  have hplen : (preselect pool301).length = 300 := by
    rw [preselect, List.length_take, List.length_insertionSort, hlen]
    decide
  have hcard2 : (preselect pool301).toFinset.card ≤ 300 := by
    rw [← hplen]
    exact List.toFinset_card_le _
  have := Finset.card_le_card hsub
  rw [hcard1] at this
  exact absurd (le_trans this hcard2) (by norm_num)

/-- C7 as amended: preselect keeps exactly M = min(300, candidate count)
chunks ranked by cosine, and every candidate whose similarity is STRICTLY
greater than the Mth-highest similarity is kept; candidates that tie with
the Mth-highest at the boundary can be cut (stable sort order decides). -/
theorem preselect_size_and_monotone (l : List CosScored) :
    (preselect l).length = min 300 l.length ∧
      ∀ c ∈ l, mthHighest l < c.cos → c ∈ preselect l := by
  have hslen : (l.insertionSort descCos).length = l.length :=
    List.length_insertionSort descCos l
  constructor
  · rw [preselect, List.length_take, hslen]
    exact min_eq_left (min_le_right _ _)
  · intro c hc hlt
    by_contra hnc
    set M := min 300 l.length with hMdef
    have hM1 : 1 ≤ M := by
      have : 1 ≤ l.length := List.length_pos.mpr (List.ne_nil_of_mem hc)
      omega
    have hML : M ≤ l.length := min_le_right _ _
    have hcs : c ∈ l.insertionSort descCos := (List.mem_insertionSort descCos).mpr hc
    have hcd : c ∈ (l.insertionSort descCos).drop M := by
      rcases (List.mem_append.mp
        (by rw [List.take_append_drop M (l.insertionSort descCos)]; exact hcs)) with h | h
      · exact absurd h hnc
      · exact h
    rcases List.mem_iff_getElem.mp hcd with ⟨j, hj, hcj⟩
    have hj2 : M + j < (l.insertionSort descCos).length := by
      rw [List.length_drop] at hj
      omega
    have hM1lt : M - 1 < (l.insertionSort descCos).length := by omega
    have hpw := List.pairwise_iff_getElem.mp
      (List.sorted_insertionSort descCos l) (M - 1) (M + j) hM1lt hj2 (by omega)
    rw [List.getElem_drop] at hcj
    have hmth : mthHighest l = ((l.insertionSort descCos).get ⟨M - 1, hM1lt⟩).cos := by
      have hmm : M - 1 < ((l.insertionSort descCos).map CosScored.cos).length := by
        rw [List.length_map]
        omega
      rw [mthHighest, ← hMdef, List.getD_eq_getElem _ _ hmm, List.getElem_map,
        List.get_eq_getElem]
    have hle : c.cos ≤ ((l.insertionSort descCos).get ⟨M - 1, hM1lt⟩).cos := by
      rw [← hcj]
      exact hpw
    rw [hmth] at hlt
    exact absurd hle (not_le.mpr hlt)

/-- The two-candidate pool of the C7 witness. -/
def pool2 : List CosScored := [⟨0, "", 0, 2⟩, ⟨1, "", 0, 1⟩]

/-- Witness for preselect_size_and_monotone: on the two-candidate pool the
kept count is min(300, 2) = 2, and the candidate with similarity 2, being
strictly above the Mth-highest similarity 1, is kept. -/
theorem preselect_size_and_monotone_witness :
    (preselect pool2).length = min 300 pool2.length ∧
      ((⟨0, "", 0, 2⟩ : CosScored) ∈ pool2 ∧
        mthHighest pool2 < (2 : ℚ) ∧
        (⟨0, "", 0, 2⟩ : CosScored) ∈ preselect pool2) := by
  have h := preselect_size_and_monotone pool2
  have hc : (⟨0, "", 0, 2⟩ : CosScored) ∈ pool2 := List.mem_cons_self _ _
  have hmth : mthHighest pool2 = 1 := by
    simp only [mthHighest, pool2, List.insertionSort, List.orderedInsert, descCos]
    norm_num
  have hlt : mthHighest pool2 < (⟨0, "", 0, 2⟩ : CosScored).cos := by
    rw [hmth]
    norm_num
  exact ⟨h.1, hc, by rw [hmth]; norm_num, h.2 _ hc hlt⟩

/-! ### Pipeline decomposition lemmas -/

/-- retrieve is the fusion pipeline combinedOf followed by best-per-doc
aggregation, URL dedup, descending sort and take k. -/
theorem retrieve_eq (sqrt log : ℚ → ℚ) (embed : String → List ℚ) (top_k : ℕ)
    (chunks : List Chunk) (docs : List Document) (tenant query : String)
    (k : Option ℕ) :
    retrieve sqrt log embed top_k chunks docs tenant query k =
      (combinedOf sqrt log embed chunks docs tenant query).map
        (fun combined =>
          ((dictValues (dedupByUrl docs (dictValues (bestPerDoc combined)))).insertionSort
            descScore).take (effK k top_k)) := by
  by_cases h : rowsFor chunks tenant = []
  · simp only [retrieve, combinedOf, h, List.isEmpty_nil, if_true, cosScored,
      Option.map_some']
    exact congrArg some (@List.take_nil Scored (effK k top_k)).symm
  · have hie : (rowsFor chunks tenant).isEmpty = false := by
      cases hr : rowsFor chunks tenant with
      | nil => exact absurd hr h
      | cons a l => rfl
    simp only [retrieve, combinedOf, hie, Bool.false_eq_true, if_false,
      Option.map_map]
    rfl

/-- The BM25 score list always has one entry per pool chunk. -/
theorem bm25_length (log : ℚ → ℚ) (q_toks : List String)
    (pool : List (List String)) :
    (bm25_scores log q_toks pool).length = pool.length := by
  by_cases h : (pool.isEmpty || q_toks.isEmpty) = true
  · simp [bm25_scores, h]
  · simp [bm25_scores, h]

/-- If every stored embedding of the row set parses, the cos_scored loop
succeeds and yields one entry per row. -/
theorem cosScored_some {sqrt : ℚ → ℚ} {q_vec : List ℚ} {rows : List Chunk}
    (hparse : ∀ r ∈ rows, r.embedding ≠ none) :
    ∃ cs, cosScored sqrt q_vec rows = some cs ∧ cs.length = rows.length := by
  induction rows with
  | nil => exact ⟨[], rfl, rfl⟩
  | cons q rest ih =>
    rcases ih (fun r hr => hparse r (List.mem_cons_of_mem _ hr)) with ⟨cs, hcs, hlen⟩
    cases hq : q.embedding with
    | none => exact absurd hq (hparse q (List.mem_cons_self _ _))
    | some e =>
      refine ⟨⟨q.id, q.text, q.document_id, cosine sqrt q_vec e⟩ :: cs, ?_, ?_⟩
      · simp [cosScored, hq, hcs]
      · simp [hlen]

/-- The combined list has one entry per preselected chunk. -/
theorem combineScores_length (log : ℚ → ℚ) (q_toks : List String)
    (is_business_query : Bool) (docs : List Document) (prelim : List CosScored) :
    (combineScores log q_toks is_business_query docs prelim).length =
      prelim.length := by
  simp only [combineScores, List.length_zipWith, bm25_length, List.length_map]
  exact min_self _

/-! ### C4: no positive-score filter, emptiness only for an empty row set -/

/-- C4 counterexample: a tenant with one chunk whose document URL lies
under /content/dam/.  With an empty query the cosine and BM25 terms are 0
and the prior is -0.4, so the fused score is 0.15 * (-0.4) = -0.06 < 0 —
and retrieve returns that entry as its (sole, top-1) result instead of an
empty sequence: no positive-score filter exists. -/
theorem retrieve_returns_nonpositive_score :
    retrieve sqrtStub logStub (fun _ => [0]) 6 [⟨1, "x", some [1], 10, "t"⟩]
      [⟨10, "/content/dam/a.pdf", "T"⟩] "t" "" none =
      some [⟨1, "x", 10, -(3/50)⟩] := by
  have hprior : url_title_prior [] "/content/dam/a.pdf" "T" false = -(2/5) := by
    have h1 : strip_acc "/content/dam/a.pdf" = "/content/dam/a.pdf" := by decide
    have h2 : strip_acc "T" = "t" := by decide
    have c1 : strContains "/content/dam/a.pdf" "uct" = false := by decide
    have c2 : strContains "t" "uct" = false := by decide
    have c3 : strContains "/content/dam/a.pdf" "/ludia/vsetky-ucty" = false := by decide
    have c4 : strContains "/content/dam/a.pdf" "/ludia/ucty" = false := by decide
    have c5 : strContains "/content/dam/a.pdf" "/ludia/" = false := by decide
    have c6 : strContains "/content/dam/a.pdf" "/content/dam/" = true := by decide
    have c7 : strContains "/content/dam/a.pdf" "/zmluvne-podmienky" = false := by decide
    have c8 : strContains "/content/dam/a.pdf" "/archiv" = false := by decide
    have c9 : strContains "/content/dam/a.pdf" "/landing-pages/" = false := by decide
    have c10 : strContains "/content/dam/a.pdf" "/biznis/" = false := by decide
    have c11 : strEndsWith "/content/dam/a.pdf" ".pdf" = true := by decide
    simp only [url_title_prior, h1, h2, c1, c2, c3, c4, c5, c6, c7, c8, c9, c10,
      c11, List.map_nil, List.sum_nil, Bool.false_eq_true, ite_false, ite_true,
      or_self, or_false, false_or, if_false, if_true]
    norm_num
  have htok : tokens "" = [] := by decide
  have htokx : tokens "x" = [] := by decide
  have hrows : rowsFor [(⟨1, "x", some [1], 10, "t"⟩ : Chunk)] "t" =
      [⟨1, "x", some [1], 10, "t"⟩] := by decide
  have hurl : docUrl [(⟨10, "/content/dam/a.pdf", "T"⟩ : Document)] 10 =
      "/content/dam/a.pdf" := by decide
  have htitle : docTitle [(⟨10, "/content/dam/a.pdf", "T"⟩ : Document)] 10 = "T" := by
    decide
  simp only [retrieve, hrows, htok]
  norm_num [cosScored, cosine, dot, preselect, combineScores, bm25_scores,
    htokx, hurl, htitle, hprior, bestPerDoc, dedupByUrl, bestByKey, bestStep,
    lookup, updIns, dictValues, urlOf, effK, isBusinessQuery, sqrtStub, logStub,
    List.insertionSort, List.orderedInsert, Retrieval.norm]

/-- C4 as amended: retrieve applies no score filter at all.  Whenever every
stored embedding of the tenant parses and the effective k is at least 1,
the call succeeds and its result is empty iff the tenant has no chunks —
candidates with zero or negative fused scores are returned like any others
(the counterexample returns a negative-score entry as the sole result). -/
theorem retrieve_empty_iff_no_rows (sqrt log : ℚ → ℚ) (embed : String → List ℚ)
    (top_k : ℕ) (chunks : List Chunk) (docs : List Document)
    (tenant query : String) (k : Option ℕ)
    (hparse : ∀ r ∈ rowsFor chunks tenant, r.embedding ≠ none)
    (hk : 1 ≤ effK k top_k) :
    ∃ res, retrieve sqrt log embed top_k chunks docs tenant query k = some res ∧
      (res = [] ↔ rowsFor chunks tenant = []) := by
  by_cases h : rowsFor chunks tenant = []
  · refine ⟨[], by simp [retrieve, h], by simp [h]⟩
  · rcases @cosScored_some sqrt (embed query) _ hparse with
      ⟨cs, hcs, hlen⟩
    have hie : (rowsFor chunks tenant).isEmpty = false := by
      cases hr : rowsFor chunks tenant with
      | nil => exact absurd hr h
      | cons a l => rfl
    have hcs1 : 1 ≤ cs.length := by
      rw [hlen]
      exact List.length_pos.mpr h
    -- the preselected list is nonempty
    have hpre : 1 ≤ (preselect cs).length := by
      rw [preselect, List.length_take, List.length_insertionSort]
      omega
    -- hence the combined list is nonempty
    set combined := combineScores log (tokens query)
      (isBusinessQuery (tokens query)) docs (preselect cs) with hcombdef
    have hcomb1 : combined ≠ [] := by
      have := combineScores_length log (tokens query)
        (isBusinessQuery (tokens query)) docs (preselect cs)
      rw [← hcombdef] at this
      intro he
      rw [he] at this
      simp at this
      omega
    -- the per-document dict is nonempty
    rcases List.exists_mem_of_ne_nil combined hcomb1 with ⟨s, hs⟩
    rcases @bestByKey_covers ℕ _ Scored.doc_id combined s hs with ⟨w, hw, -⟩
    have hbpd : dictValues (bestPerDoc combined) ≠ [] := by
      have hmem : (s.doc_id, w) ∈ bestPerDoc combined := lookup_some_mem hw
      exact List.ne_nil_of_mem (List.mem_map.mpr ⟨(s.doc_id, w), hmem, rfl⟩)
    -- the URL dict is nonempty
    rcases List.exists_mem_of_ne_nil _ hbpd with ⟨v, hv⟩
    rcases @bestByKey_covers String _ (urlOf docs) _ v hv with ⟨w2, hw2, -⟩
    have hbyu : dictValues (dedupByUrl docs (dictValues (bestPerDoc combined))) ≠ [] := by
      have hmem : (urlOf docs v, w2) ∈ dedupByUrl docs (dictValues (bestPerDoc combined)) :=
        lookup_some_mem hw2
      exact List.ne_nil_of_mem (List.mem_map.mpr ⟨(urlOf docs v, w2), hmem, rfl⟩)
    have hsome : retrieve sqrt log embed top_k chunks docs tenant query k =
        some (((dictValues (dedupByUrl docs
          (dictValues (bestPerDoc combined)))).insertionSort descScore).take
            (effK k top_k)) := by
      rw [retrieve_eq]
      simp only [combinedOf, hcs, Option.map_some']
    refine ⟨_, hsome, ?_⟩
    have hlen2 : 1 ≤ ((dictValues (dedupByUrl docs
        (dictValues (bestPerDoc combined)))).insertionSort descScore).length := by
      rw [List.length_insertionSort]
      exact List.length_pos.mpr hbyu
    constructor
    · intro he
      have hle := congrArg List.length he
      rw [List.length_take] at hle
      simp only [List.length_nil] at hle
      omega
    · intro he
      exact absurd he h

/-- Witness for retrieve_empty_iff_no_rows at the counterexample store: the
single embedding parses, the effective k is 6 ≥ 1, and the result is
nonempty because the tenant has a chunk. -/
theorem retrieve_empty_iff_no_rows_witness :
    (∀ r ∈ rowsFor [(⟨1, "x", some [1], 10, "t"⟩ : Chunk)] "t",
        r.embedding ≠ none) ∧
      1 ≤ effK none 6 ∧
      ∃ res, retrieve sqrtStub logStub (fun _ => [0]) 6
          [⟨1, "x", some [1], 10, "t"⟩] [⟨10, "/content/dam/a.pdf", "T"⟩]
          "t" "" none = some res ∧
        (res = [] ↔ rowsFor [(⟨1, "x", some [1], 10, "t"⟩ : Chunk)] "t" = []) := by
  have hparse : ∀ r ∈ rowsFor [(⟨1, "x", some [1], 10, "t"⟩ : Chunk)] "t",
      r.embedding ≠ none := by decide
  have hk : 1 ≤ effK none 6 := by decide
  exact ⟨hparse, hk, retrieve_empty_iff_no_rows sqrtStub logStub (fun _ => [0]) 6
    [⟨1, "x", some [1], 10, "t"⟩] [⟨10, "/content/dam/a.pdf", "T"⟩] "t" "" none
    hparse hk⟩

/-! ### C5 and C6: ordering, result count, and per-document / per-URL
uniqueness of the final ranking -/

/-- The URL image of the per-document best entries is the URL image of the
whole combined list. -/
theorem bestPerDoc_values_url_toFinset (docs : List Document) (comb : List Scored) :
    ((dictValues (bestPerDoc comb)).map (urlOf docs)).toFinset =
      (comb.map (urlOf docs)).toFinset := by
  ext u
  simp only [List.mem_toFinset]
  constructor
  · intro hu
    rcases List.mem_map.mp hu with ⟨v, hv, rfl⟩
    rcases List.mem_map.mp hv with ⟨p, hp, rfl⟩
    exact List.mem_map.mpr ⟨p.2, bestByKey_mem hp, rfl⟩
  · intro hu
    rcases List.mem_map.mp hu with ⟨s, hs, rfl⟩
    rcases @bestByKey_covers ℕ _ Scored.doc_id comb s hs with ⟨w, hw, -⟩
    have hmem := lookup_some_mem hw
    have hidw : s.doc_id = w.doc_id := bestByKey_consistent (s.doc_id, w) hmem
    refine List.mem_map.mpr ⟨w, List.mem_map.mpr ⟨(s.doc_id, w), hmem, rfl⟩, ?_⟩
    simp [urlOf, hidw]

/-- The two-document, one-URL store of the C5 counterexample. -/
def chunksDup : List Chunk :=
  [⟨1, "x", some [1], 10, "t"⟩, ⟨2, "y", some [1], 11, "t"⟩]

/-- Its document table: two distinct document ids sharing the URL u. -/
def docsDup : List Document := [⟨10, "u", "T"⟩, ⟨11, "u", "T"⟩]

/-- C5 counterexample: tenant t has chunks in 2 distinct documents and
K = 2 ≤ 2, yet retrieve returns exactly one result, because the two
documents share the URL u and the URL dedup keeps only one of them.  (With
an empty query and zero vectors, both fused scores are 0; the first
document wins the tie.) -/
theorem retrieve_fewer_than_k_on_dup_url :
    ((rowsFor chunksDup "t").map Chunk.document_id).toFinset.card = 2 ∧
      retrieve sqrtStub logStub (fun _ => [0]) 6 chunksDup docsDup "t" ""
        (some 2) = some [⟨1, "x", 10, 0⟩] := by
  constructor
  · decide
  · have hprior : url_title_prior [] "u" "T" false = 0 := by
      have h1 : strip_acc "u" = "u" := by decide
      have h2 : strip_acc "T" = "t" := by decide
      have c1 : strContains "u" "uct" = false := by decide
      have c2 : strContains "t" "uct" = false := by decide
      have c3 : strContains "u" "/ludia/vsetky-ucty" = false := by decide
      have c4 : strContains "u" "/ludia/ucty" = false := by decide
      have c5 : strContains "u" "/ludia/" = false := by decide
      have c6 : strContains "u" "/content/dam/" = false := by decide
      have c7 : strContains "u" "/zmluvne-podmienky" = false := by decide
      have c8 : strContains "u" "/archiv" = false := by decide
      have c9 : strContains "u" "/landing-pages/" = false := by decide
      have c10 : strContains "u" "/biznis/" = false := by decide
      have c11 : strEndsWith "u" ".pdf" = false := by decide
      simp only [url_title_prior, h1, h2, c1, c2, c3, c4, c5, c6, c7, c8, c9,
        c10, c11, List.map_nil, List.sum_nil, Bool.false_eq_true, ite_false,
        ite_true, or_self, or_false, false_or, if_false, if_true]
      norm_num
    have htok : tokens "" = [] := by decide
    have htokx : tokens "x" = [] := by decide
    have htoky : tokens "y" = [] := by decide
    have hrows : rowsFor chunksDup "t" =
        [⟨1, "x", some [1], 10, "t"⟩, ⟨2, "y", some [1], 11, "t"⟩] := by decide
    have hurl1 : docUrl docsDup 10 = "u" := by decide
    have hurl2 : docUrl docsDup 11 = "u" := by decide
    have htitle1 : docTitle docsDup 10 = "T" := by decide
    have htitle2 : docTitle docsDup 11 = "T" := by decide
    simp only [retrieve, hrows, htok]
    norm_num [cosScored, cosine, dot, preselect, combineScores, bm25_scores,
      htokx, htoky, hurl1, hurl2, htitle1, htitle2, hprior, bestPerDoc,
      dedupByUrl, bestByKey, bestStep, lookup, updIns, dictValues, urlOf,
      effK, isBusinessQuery, sqrtStub, logStub, List.insertionSort,
      List.orderedInsert, Retrieval.norm, descCos, descScore, List.replicate]

/-- C5 as amended: when the call succeeds, the output is sorted descending
by fused score, and its length is min(effective k, number of distinct URLs
among the combined chunks' owning documents).  The URL dedup can make this
smaller than the number of distinct documents (see the counterexample), and
k.or(top_k) with k = 0 falls back to top_k. -/
theorem retrieve_sorted_and_count (sqrt log : ℚ → ℚ) (embed : String → List ℚ)
    (top_k : ℕ) (chunks : List Chunk) (docs : List Document)
    (tenant query : String) (k : Option ℕ) (comb res : List Scored)
    (hcomb : combinedOf sqrt log embed chunks docs tenant query = some comb)
    (hres : retrieve sqrt log embed top_k chunks docs tenant query k = some res) :
    List.Pairwise (fun a c : Scored => c.score ≤ a.score) res ∧
      res.length = min (effK k top_k) ((comb.map (urlOf docs)).toFinset.card) := by
  have heq := retrieve_eq sqrt log embed top_k chunks docs tenant query k
  rw [hcomb, Option.map_some'] at heq
  rw [heq] at hres
  have hres2 : ((dictValues (dedupByUrl docs
      (dictValues (bestPerDoc comb)))).insertionSort descScore).take
        (effK k top_k) = res := Option.some_inj.mp hres
  subst hres2
  constructor
  · exact List.Pairwise.sublist (List.take_sublist _ _)
      (List.sorted_insertionSort descScore _)
  · rw [List.length_take, List.length_insertionSort]
    congr 1
    have h1 : (dictValues (dedupByUrl docs (dictValues (bestPerDoc comb)))).length
        = (dedupByUrl docs (dictValues (bestPerDoc comb))).length := by
      rw [dictValues, List.length_map]
    rw [h1, dedupByUrl, bestByKey_length, bestPerDoc_values_url_toFinset]

/-- The one-chunk store shared by the C5 and C6 witnesses. -/
def chunksW : List Chunk := [⟨1, "x", some [0], 10, "t"⟩]

/-- The fusion stage of the witness store: one combined chunk with fused
score 0 (cosine 0 against the zero query vector, empty query tokens, and a
document table with no rows, so URL and title default to empty). -/
theorem combinedOf_chunksW :
    combinedOf sqrtStub logStub (fun _ => [0]) chunksW [] "t" "" =
      some [⟨1, "x", 10, 0⟩] := by
  have hprior : url_title_prior [] "" "" false = 0 := by
    have h1 : strip_acc "" = "" := by decide
    have c1 : strContains "" "uct" = false := by decide
    have c3 : strContains "" "/ludia/vsetky-ucty" = false := by decide
    have c4 : strContains "" "/ludia/ucty" = false := by decide
    have c5 : strContains "" "/ludia/" = false := by decide
    have c6 : strContains "" "/content/dam/" = false := by decide
    have c7 : strContains "" "/zmluvne-podmienky" = false := by decide
    have c8 : strContains "" "/archiv" = false := by decide
    have c9 : strContains "" "/landing-pages/" = false := by decide
    have c10 : strContains "" "/biznis/" = false := by decide
    have c11 : strEndsWith "" ".pdf" = false := by decide
    simp only [url_title_prior, h1, c1, c3, c4, c5, c6, c7, c8, c9, c10, c11,
      List.map_nil, List.sum_nil, Bool.false_eq_true, ite_false, ite_true,
      or_self, or_false, false_or, if_false, if_true]
    norm_num
  have htok : tokens "" = [] := by decide
  have htokx : tokens "x" = [] := by decide
  have hrows : rowsFor chunksW "t" = chunksW := by decide
  have hurl : docUrl [] 10 = "" := by decide
  have htitle : docTitle [] 10 = "" := by decide
  simp only [combinedOf, hrows, htok, chunksW]
  norm_num [cosScored, cosine, dot, preselect, combineScores, bm25_scores,
    htokx, hurl, htitle, hprior, isBusinessQuery, sqrtStub, logStub,
    List.insertionSort, List.orderedInsert, Retrieval.norm, descCos]

/-- The full call on the witness store returns the single combined chunk. -/
theorem retrieve_chunksW :
    retrieve sqrtStub logStub (fun _ => [0]) 6 chunksW [] "t" "" (some 3) =
      some [⟨1, "x", 10, 0⟩] := by
  rw [retrieve_eq, combinedOf_chunksW, Option.map_some']
  rfl

/-- Witness for retrieve_sorted_and_count at the one-chunk store: the
pipeline succeeds, the single result is trivially sorted, and the count is
min(3, 1) = 1. -/
theorem retrieve_sorted_and_count_witness :
    (combinedOf sqrtStub logStub (fun _ => [0]) chunksW [] "t" "" =
        some [⟨1, "x", 10, 0⟩]) ∧
      (retrieve sqrtStub logStub (fun _ => [0]) 6 chunksW [] "t" "" (some 3) =
        some [⟨1, "x", 10, 0⟩]) ∧
      List.Pairwise (fun a c : Scored => c.score ≤ a.score) [⟨1, "x", 10, 0⟩] ∧
      ([(⟨1, "x", 10, 0⟩ : Scored)] : List Scored).length =
        min (effK (some 3) 6)
          (([(⟨1, "x", 10, 0⟩ : Scored)].map (urlOf [])).toFinset.card) := by
  have h := retrieve_sorted_and_count sqrtStub logStub (fun _ => [0]) 6 chunksW
    [] "t" "" (some 3) [⟨1, "x", 10, 0⟩] [⟨1, "x", 10, 0⟩]
    combinedOf_chunksW retrieve_chunksW
  exact ⟨combinedOf_chunksW, retrieve_chunksW, h.1, h.2⟩

/-- C6: when the call succeeds, no two returned entries share a document id
and no two share their owning document's URL; moreover each returned entry
scores at least as high as every per-document best chunk that resolves to
the same URL — the higher-scoring document survives the URL dedup. -/
theorem retrieve_unique_docs_and_urls (sqrt log : ℚ → ℚ)
    (embed : String → List ℚ) (top_k : ℕ) (chunks : List Chunk)
    (docs : List Document) (tenant query : String) (k : Option ℕ)
    (comb res : List Scored)
    (hcomb : combinedOf sqrt log embed chunks docs tenant query = some comb)
    (hres : retrieve sqrt log embed top_k chunks docs tenant query k = some res) :
    (res.map Scored.doc_id).Nodup ∧ (res.map (urlOf docs)).Nodup ∧
      ∀ e ∈ res, ∀ d ∈ dictValues (bestPerDoc comb),
        urlOf docs d = urlOf docs e → d.score ≤ e.score := by
  have heq := retrieve_eq sqrt log embed top_k chunks docs tenant query k
  rw [hcomb, Option.map_some'] at heq
  rw [heq] at hres
  have hres2 : ((dictValues (dedupByUrl docs
      (dictValues (bestPerDoc comb)))).insertionSort descScore).take
        (effK k top_k) = res := Option.some_inj.mp hres
  subst hres2
  have hbyuUrl : ((dictValues (dedupByUrl docs
      (dictValues (bestPerDoc comb)))).map (urlOf docs)).Nodup :=
    bestByKey_values_key_nodup _
  have hbpdDoc : ((dictValues (bestPerDoc comb)).map Scored.doc_id).Nodup :=
    bestByKey_values_key_nodup _
  have hsub : ∀ v ∈ dictValues (dedupByUrl docs (dictValues (bestPerDoc comb))),
      v ∈ dictValues (bestPerDoc comb) := by
    intro v hv
    rcases List.mem_map.mp hv with ⟨p, hp, rfl⟩
    exact bestByKey_mem hp
  have hbyuNodup : (dictValues (dedupByUrl docs
      (dictValues (bestPerDoc comb)))).Nodup := List.Nodup.of_map _ hbyuUrl
  have hbyuDoc : ((dictValues (dedupByUrl docs
      (dictValues (bestPerDoc comb)))).map Scored.doc_id).Nodup := by
    refine List.Nodup.map_on ?_ hbyuNodup
    intro x hx y hy hxy
    exact List.inj_on_of_nodup_map hbpdDoc (hsub x hx) (hsub y hy) hxy
  have hperm := List.perm_insertionSort descScore
    (dictValues (dedupByUrl docs (dictValues (bestPerDoc comb))))
  refine ⟨?_, ?_, ?_⟩
  · refine List.Nodup.sublist
      (List.Sublist.map _ (List.take_sublist _ _)) ?_
    exact ((hperm.map Scored.doc_id).nodup_iff).mpr hbyuDoc
  · refine List.Nodup.sublist
      (List.Sublist.map _ (List.take_sublist _ _)) ?_
    exact ((hperm.map (urlOf docs)).nodup_iff).mpr hbyuUrl
  · intro e he d hd hud
    have he2 : e ∈ dictValues (dedupByUrl docs (dictValues (bestPerDoc comb))) :=
      hperm.mem_iff.mp ((List.take_sublist _ _).subset he)
    rcases List.mem_map.mp he2 with ⟨p, hp, rfl⟩
    have hkey : p.1 = urlOf docs p.2 := bestByKey_consistent p hp
    refine bestByKey_max hp d hd ?_
    rw [hud, hkey]

/-- Witness for retrieve_unique_docs_and_urls at the one-chunk store: the
single result has trivially unique document ids and URLs, and its score is
at least that of the per-document best chunk with the same URL (itself). -/
theorem retrieve_unique_docs_and_urls_witness :
    (combinedOf sqrtStub logStub (fun _ => [0]) chunksW [] "t" "" =
        some [⟨1, "x", 10, 0⟩]) ∧
      (([(⟨1, "x", 10, 0⟩ : Scored)].map Scored.doc_id).Nodup ∧
        ([(⟨1, "x", 10, 0⟩ : Scored)].map (urlOf [])).Nodup) ∧
      (⟨1, "x", 10, 0⟩ : Scored).score ≤ (⟨1, "x", 10, 0⟩ : Scored).score := by
  have h := retrieve_unique_docs_and_urls sqrtStub logStub (fun _ => [0]) 6
    chunksW [] "t" "" (some 3) [⟨1, "x", 10, 0⟩] [⟨1, "x", 10, 0⟩]
    combinedOf_chunksW retrieve_chunksW
  have he : (⟨1, "x", 10, 0⟩ : Scored) ∈ ([⟨1, "x", 10, 0⟩] : List Scored) :=
    List.mem_singleton.mpr rfl
  have hd : (⟨1, "x", 10, 0⟩ : Scored) ∈
      dictValues (bestPerDoc [(⟨1, "x", 10, 0⟩ : Scored)]) := by
    rw [show dictValues (bestPerDoc [(⟨1, "x", 10, 0⟩ : Scored)]) =
      [⟨1, "x", 10, 0⟩] from rfl]
    exact List.mem_singleton.mpr rfl
  exact ⟨combinedOf_chunksW, ⟨h.1, h.2.1⟩, h.2.2 _ he _ hd rfl⟩

end Retrieval
